import Mathlib

/-!
Shallow embedding of the crab-rt path tracer (vector math, AABBs, sphere
intersection, BVH construction and traversal, materials, the recursive
integrator `cast`, and the renderer's scanline partition) over the real
numbers, together with theorems settling the specification claims.

Modelling conventions:
* `f32` is idealised as `ℝ`.  The single place the code uses
  `f32::INFINITY` (the `t_max` bound of the integrator's scene query) is
  modelled by taking interval bounds in `WithTop ℝ`.
* The Rust sources compute `recip()` of a possibly-zero direction
  component in `Aabb::hit`; the IEEE-754 behaviour of that branch
  (`recip(±0) = ±∞`, products with `∞` and the NaN-ignoring
  `f32::max/min`) is spelled out as an explicit case split on `d = 0`.
* Randomness (`rand` draws inside materials) is passed in explicitly as
  a `Rand` value, matching the spec's description of scattering as using
  an externally supplied random source.
-/

noncomputable section

namespace CrabRt

open Classical

/-- Interval bound type for `t_min`/`t_max`: reals extended with `⊤`,
modelling `f32::INFINITY`. -/
abbrev RE := WithTop ℝ

/-- Embedding of `Vec3` (src/vec.rs): a 3D vector of reals. -/
structure Vec3 where
  x : ℝ
  y : ℝ
  z : ℝ
deriving DecidableEq

namespace Vec3

/-- `Vec3::new`. -/
def new (x y z : ℝ) : Vec3 := ⟨x, y, z⟩

/-- `Vec3::zero`. -/
def zero : Vec3 := ⟨0, 0, 0⟩

/-- `Vec3::is_zero`: all coordinates are zero. -/
def isZero (v : Vec3) : Prop := v.x = 0 ∧ v.y = 0 ∧ v.z = 0

/-- `Vec3::is_near_zero`: all coordinates below the threshold `1e-8`. -/
def isNearZero (v : Vec3) : Prop :=
  |v.x| < 1e-8 ∧ |v.y| < 1e-8 ∧ |v.z| < 1e-8

instance : Add Vec3 := ⟨fun a b => ⟨a.x + b.x, a.y + b.y, a.z + b.z⟩⟩

instance : Neg Vec3 := ⟨fun a => ⟨-a.x, -a.y, -a.z⟩⟩

/-- `Vec3: Sub` is implemented in the source as `self + (-rhs)`. -/
instance : Sub Vec3 := ⟨fun a b => a + (-b)⟩

/-- Componentwise product (`impl Mul<Vec3> for Vec3`). -/
instance : Mul Vec3 := ⟨fun a b => ⟨a.x * b.x, a.y * b.y, a.z * b.z⟩⟩

/-- Scalar multiplication (`impl Mul<f32> for Vec3` / `Mul<Vec3> for f32`). -/
instance : SMul ℝ Vec3 := ⟨fun r a => ⟨r * a.x, r * a.y, r * a.z⟩⟩

/-- `impl Div<f32> for Vec3`: multiplies by the reciprocal. -/
def divScalar (a : Vec3) (r : ℝ) : Vec3 := r⁻¹ • a

/-- `Vec3::dot`. -/
def dot (a b : Vec3) : ℝ := a.x * b.x + a.y * b.y + a.z * b.z

/-- `Vec3::square`: the dot product of the vector with itself. -/
def square (a : Vec3) : ℝ := a.x * a.x + a.y * a.y + a.z * a.z

/-- `Vec3::length`. -/
def length (a : Vec3) : ℝ := Real.sqrt (a.x * a.x + a.y * a.y + a.z * a.z)

/-- `Vec3::unit`: the zero vector is returned unchanged, otherwise the
vector divided by its length. -/
def unit (a : Vec3) : Vec3 := if a.isZero then a else a.divScalar a.length

/-- `Vec3::cross`. -/
def cross (a b : Vec3) : Vec3 :=
  ⟨a.y * b.z - a.z * b.y, a.z * b.x - a.x * b.z, a.x * b.y - a.y * b.x⟩

/-- `impl Index<usize> for Vec3` restricted to the three valid indices. -/
def nth (v : Vec3) : Fin 3 → ℝ
  | 0 => v.x
  | 1 => v.y
  | 2 => v.z

@[simp] theorem add_def (a b : Vec3) :
    a + b = ⟨a.x + b.x, a.y + b.y, a.z + b.z⟩ := rfl

@[simp] theorem neg_def (a : Vec3) : -a = (⟨-a.x, -a.y, -a.z⟩ : Vec3) := rfl

@[simp] theorem smul_def (r : ℝ) (a : Vec3) :
    r • a = ⟨r * a.x, r * a.y, r * a.z⟩ := rfl

@[simp] theorem mul_def (a b : Vec3) :
    a * b = ⟨a.x * b.x, a.y * b.y, a.z * b.z⟩ := rfl

@[simp] theorem sub_def (a b : Vec3) :
    a - b = ⟨a.x - b.x, a.y - b.y, a.z - b.z⟩ := by
  show a + -b = _
  simp [sub_eq_add_neg]

end Vec3

/-- `Point3`/`Color3` are aliases of `Vec3` in the source. -/
abbrev Point3 := Vec3

/-- Color alias (`Color3`). -/
abbrev Color3 := Vec3

/-- Embedding of `Ray` (src/ray.rs). -/
structure Ray where
  origin : Point3
  direction : Vec3
  time : ℝ

namespace Ray

/-- `Ray::point`: `origin + t * direction`. -/
def point (r : Ray) (t : ℝ) : Vec3 := r.origin + t • r.direction

end Ray

/-- `utils::reflect`: `v - 2 * v.dot(n) * n`. -/
def reflect (v n : Vec3) : Vec3 := v - (2 * v.dot n) • n

/-- `utils::refract`. -/
def refract (uv n : Vec3) (etaiOverEtat : ℝ) : Vec3 :=
  let cosTheta := min ((-uv).dot n) 1
  let rOutPerp := etaiOverEtat • (uv + cosTheta • n)
  let rOutParallel := (-Real.sqrt |1 - rOutPerp.square|) • n
  rOutPerp + rOutParallel

/-- `utils::schlick`: the Schlick reflectance approximation. -/
def schlick (cosine refractionIndex : ℝ) : ℝ :=
  let r0 := (1 - refractionIndex) / (1 + refractionIndex)
  let r0sq := r0 * r0
  (1 - r0sq) * (1 - cosine) ^ (5 : ℕ) + r0sq

/-- Embedding of `Aabb` (src/aabb.rs). -/
structure Aabb where
  min : Vec3
  max : Vec3
deriving DecidableEq

namespace Aabb

/-- `Aabb::new` (the `debug_assert` is a precondition, not behaviour). -/
def new (mn mx : Vec3) : Aabb := ⟨mn, mx⟩

/-- `Aabb::surrounding_box`: componentwise min of the mins and max of the
maxes. -/
def surrounding_box (b0 b1 : Aabb) : Aabb :=
  new
    ⟨Min.min b0.min.x b1.min.x, Min.min b0.min.y b1.min.y,
      Min.min b0.min.z b1.min.z⟩
    ⟨Max.max b0.max.x b1.max.x, Max.max b0.max.y b1.max.y,
      Max.max b0.max.z b1.max.z⟩

/-- One axis of the slab test in `Aabb::hit`.  For `d ≠ 0` this is the
source's arithmetic verbatim (`recip` then two products, swap on negative
reciprocal, then compare the clipped interval).  For `d = 0` the source
computes `recip(±0) = ±∞` and products with `±∞` (NaN when the origin
sits exactly on a slab plane, which `f32::max/min` then ignore); the net
IEEE-754 result of that branch is: fail exactly when the origin lies
strictly outside the slab, or when `t_max ≤ t_min`. -/
def axisHit (mn mx o d : ℝ) (tmin tmax : RE) : Prop :=
  if d = 0 then
    mn ≤ o ∧ o ≤ mx ∧ tmin < tmax
  else
    let inv := d⁻¹
    let t0 := (mn - o) * inv
    let t1 := (mx - o) * inv
    let tt0 := if inv < 0 then t1 else t0
    let tt1 := if inv < 0 then t0 else t1
    ¬(Min.min (↑tt1) tmax ≤ Max.max (↑tt0) tmin)

/-- `Aabb::hit`: each axis runs the slab test against the original
`t_min`/`t_max` (the tightened bounds are local to one loop iteration). -/
def rayHit (b : Aabb) (ray : Ray) (tmin tmax : RE) : Prop :=
  ∀ axis : Fin 3,
    axisHit (b.min.nth axis) (b.max.nth axis)
      (ray.origin.nth axis) (ray.direction.nth axis) tmin tmax

end Aabb

/-- Texture backend.  The claims only exercise the `Monochrome` backend
(src/textures/monochrome.rs); the other backends are external
collaborators consumed through the same `value` contract. -/
inductive Texture where
  | monochrome (color : Color3)

namespace Texture

/-- `Texture::value` (`Monochrome` returns its color regardless of the
coordinates). -/
def value (t : Texture) (_textureCoordinates : ℝ × ℝ) (_p : Point3) :
    Color3 :=
  match t with
  | monochrome c => c

end Texture

/-- The random draws a single `Material::scatter` call may consume,
passed explicitly (the spec: scattering decisions use an externally
supplied random source). -/
structure Rand where
  unitVector : Vec3
  inUnitSphere : Vec3
  uniform : ℝ

/-- The closed set of `Material` variants (src/materials/). -/
inductive Material where
  | lambertian (albedo : Texture)
  | metal (albedo : Color3) (fuzziness : ℝ)
  | dielectric (refractiveIndex : ℝ)
  | light (emit : Texture)
  | isotropic (albedo : Texture)

/-- `Metal::new` (src/materials/metal.rs lines 28-33): the stored
fuzziness is `1` when the argument exceeds `1`, and the argument itself
otherwise. -/
def Metal.new (albedo : Color3) (fuzziness : ℝ) : Material :=
  .metal albedo (if fuzziness > 1 then 1 else fuzziness)

/-- Embedding of `HitRecord` (src/hitable.rs).  The borrowed material
reference is embedded as a `Material` value. -/
structure HitRecord where
  t : ℝ
  hitPoint : Point3
  normal : Vec3
  textureCoordinates : ℝ × ℝ
  frontFace : Bool
  material : Material

namespace HitRecord

/-- `HitRecord::new`: `front_face` starts out `true`. -/
def new (t : ℝ) (hitPoint : Point3) (normal : Vec3)
    (textureCoordinates : ℝ × ℝ) (material : Material) : HitRecord :=
  ⟨t, hitPoint, normal, textureCoordinates, true, material⟩

/-- `HitRecord::set_face_normal`: `front_face := dot(direction, normal) < 0`;
the normal is negated when `front_face` is false. -/
def set_face_normal (rec : HitRecord) (ray : Ray) : HitRecord :=
  let frontFace := decide (ray.direction.dot rec.normal < 0)
  { rec with
    frontFace := frontFace
    normal := if frontFace then rec.normal else -rec.normal }

end HitRecord

namespace Material

/-- `Material::emitted`: zero by default, the emission texture for
`Light` (src/materials/material.rs, src/materials/light.rs). -/
def emitted (m : Material) (textureCoordinates : ℝ × ℝ) (p : Point3) :
    Color3 :=
  match m with
  | light emit => emit.value textureCoordinates p
  | _ => Vec3.new 0 0 0

/-- `Material::scatter` for each variant, with the random draws supplied
through `rnd` (src/materials/). -/
def scatter (m : Material) (rnd : Rand) (ray : Ray) (rec : HitRecord) :
    Option (Ray × Color3) :=
  match m with
  | lambertian albedo =>
      let sd := rec.normal + rnd.unitVector
      let scatterDirection := if sd.isNearZero then rec.normal else sd
      some (⟨rec.hitPoint, scatterDirection, ray.time⟩,
        albedo.value rec.textureCoordinates rec.hitPoint)
  | metal albedo fuzziness =>
      let reflected := reflect ray.direction.unit rec.normal
      let scattered : Ray :=
        ⟨rec.hitPoint, reflected + fuzziness • rnd.inUnitSphere, ray.time⟩
      if scattered.direction.dot rec.normal > 0 then
        some (scattered, albedo)
      else
        none
  | dielectric refractiveIndex =>
      let refractionRatio :=
        if rec.frontFace then 1 / refractiveIndex else refractiveIndex
      let unitDirection := ray.direction.unit
      let cosTheta := Min.min ((-unitDirection).dot rec.normal) 1
      let sinTheta := Real.sqrt (1 - cosTheta * cosTheta)
      let cannotRefract := refractionRatio * sinTheta > 1
      let direction :=
        if cannotRefract ∨ schlick cosTheta refractionRatio > rnd.uniform
        then reflect unitDirection rec.normal
        else refract unitDirection rec.normal refractionRatio
      some (⟨rec.hitPoint, direction, ray.time⟩, Vec3.new 1 1 1)
  | light _ => none
  | isotropic albedo =>
      some (⟨rec.hitPoint, rnd.inUnitSphere, ray.time⟩,
        albedo.value rec.textureCoordinates rec.hitPoint)

end Material

/-- Embedding of `Sphere` (src/objects/sphere.rs).  The `radius > 0`
assertion of `Sphere::new` becomes a hypothesis where needed. -/
structure Sphere where
  center : Point3
  radius : ℝ
  material : Material

namespace Sphere

/-- `Sphere::get_texture_coordinates`: spherical angles normalised to
`[0,1]` (`atan2(-z, x) + π` written through `Complex.arg`). -/
def get_texture_coordinates (p : Point3) : ℝ × ℝ :=
  let theta := Real.arccos (-p.y)
  let phi := Complex.arg ⟨p.x, -p.z⟩ + Real.pi
  (phi / (2 * Real.pi), theta / Real.pi)

/-- `Sphere::hit` (src/objects/sphere.rs lines 73-109): half-b quadratic
solve, smaller root first, falling back to the larger, each accepted when
not outside `[t_min, t_max]`. -/
def hit (s : Sphere) (ray : Ray) (tmin tmax : RE) : Option HitRecord :=
  let oc := ray.origin - s.center
  let a := ray.direction.square
  let halfB := oc.dot ray.direction
  let c := oc.square - s.radius * s.radius
  let discriminantOver4 := halfB * halfB - a * c
  if discriminantOver4 < 0 then
    none
  else
    let invA := 1 / a
    let halfSqrtDiscriminant := Real.sqrt discriminantOver4
    let root1 := (-halfB - halfSqrtDiscriminant) * invA
    let root2 := (-halfB + halfSqrtDiscriminant) * invA
    let root? :=
      if (root1 : RE) < tmin ∨ tmax < (root1 : RE) then
        if (root2 : RE) < tmin ∨ tmax < (root2 : RE) then none else some root2
      else
        some root1
    root?.map fun root =>
      let hitPoint := ray.point root
      let outwardNormal := (hitPoint - s.center).divScalar s.radius
      (HitRecord.new root hitPoint outwardNormal
        (get_texture_coordinates outwardNormal) s.material).set_face_normal
        ray

/-- `Sphere::bounding_box`: center ± radius on every axis, for any time
interval. -/
def bounding_box (s : Sphere) : Aabb :=
  Aabb.new (s.center - Vec3.new s.radius s.radius s.radius)
    (s.center + Vec3.new s.radius s.radius s.radius)

end Sphere

/-- Polymorphic hitables as stored in the BVH (`Box<dyn Hitable>` in
src/bvh.rs): either a scene object — the claims' primitive is the sphere
(wrapped by `Object`, whose `hit`/`bounding_box` delegate to it) — or a
`BvhNode` with an optional cached box and optional children. -/
inductive Hitable where
  | obj (s : Sphere)
  | node (bbox : Option Aabb) (left : Option Hitable) (right : Option Hitable)

namespace Hitable

/-- `Hitable::bounding_box`: the sphere's box for objects, the cached box
for BVH nodes. -/
def bounding_box : Hitable → Option Aabb
  | obj s => some s.bounding_box
  | node bbox _ _ => bbox

/-- `BvhNode::hit` (src/bvh.rs lines 80-108) together with the delegation
of `Object::hit` to the wrapped primitive: prune on a bounding-box miss,
query the left child, query the right child with `t_max` tightened to the
left hit's `t`, and prefer the right result. -/
def hit : Hitable → Ray → RE → RE → Option HitRecord
  | obj s, ray, tmin, tmax => s.hit ray tmin tmax
  | node bbox left right, ray, tmin, tmax =>
    if ¬(bbox.elim False fun b => b.rayHit ray tmin tmax) then
      none
    else
      let leftRecord :=
        match left with
        | none => none
        | some l => l.hit ray tmin tmax
      let rightRecord :=
        match right with
        | none => none
        | some r =>
            r.hit ray tmin (leftRecord.elim tmax fun rec => (rec.t : RE))
      rightRecord.or leftRecord

end Hitable

/-- The cached box of a freshly built `BvhNode` (src/bvh.rs lines 58-73):
the left child's box when there is no right child, otherwise the
surrounding box of the two children's boxes (requiring both). -/
def mkBbox (left right : Option Hitable) : Option Aabb :=
  let leftBbox :=
    match left with
    | none => none
    | some l => l.bounding_box
  match right with
  | none => leftBbox
  | some r =>
    match leftBbox, r.bounding_box with
    | some lb, some rb => some (Aabb.surrounding_box lb rb)
    | _, _ => none

/-- `BvhNode::new` for a one-object list: the shape does not depend on
the sampled axis. -/
def BvhNode.newSingle (s : Sphere) : Hitable :=
  .node (mkBbox (some (.obj s)) none) (some (.obj s)) none

/-- `BvhNode::default`: no box, no children. -/
def BvhNode.default : Hitable := .node none none none

/-- The trees `BvhNode::new` can produce from a non-empty object list,
for every possible sampled axis and comparator-sort outcome: a single
object becomes the left child of a childless-right node; a pair becomes
the two children in comparator order (both orders covered); a longer
list is sorted and split, each part built recursively.  The relation
over-approximates the median split (any non-trivial split of any
permutation), so theorems quantified over it cover every run of the
randomized constructor. -/
inductive Built : Hitable → List Sphere → Prop where
  | one (s : Sphere) : Built (BvhNode.newSingle s) [s]
  | two (s1 s2 : Sphere) (l : List Sphere) (hp : l.Perm [s1, s2]) :
      Built
        (.node (mkBbox (some (.obj s1)) (some (.obj s2))) (some (.obj s1))
          (some (.obj s2)))
        l
  | more (l l1 l2 : List Sphere) (T1 T2 : Hitable) (hp : l.Perm (l1 ++ l2))
      (h1 : l1 ≠ []) (h2 : l2 ≠ []) (hb1 : Built T1 l1) (hb2 : Built T2 l2) :
      Built (.node (mkBbox (some T1) (some T2)) (some T1) (some T2)) l

/-- `impl Hitable for Vec<H>` (src/hitable.rs lines 17-29): the
brute-force linear scan, re-querying each object with `t_max` tightened
to the closest hit so far. -/
def listHit (objects : List Sphere) (ray : Ray) (tmin tmax : RE) :
    Option HitRecord :=
  objects.foldl
    (fun closestRecord hitable =>
      match hitable.hit ray tmin (closestRecord.elim tmax fun r => (r.t : RE))
        with
      | some record => some record
      | none => closestRecord)
    none

/-- `Background` (src/scene.rs): constant color or vertical gradient. -/
inductive Background where
  | Color (c : Color3)
  | Gradient (c1 c2 : Color3)

/-- `Background::color`: gradient interpolation `t*c1 + (1-t)*c2`. -/
def Background.color (b : Background) (t : ℝ) : Color3 :=
  match b with
  | .Color c => c
  | .Gradient c1 c2 => t • c1 + (1 - t) • c2

/-- Embedding of `Scene` (src/scene.rs). -/
structure Scene where
  bvh : Hitable
  background : Background

/-- `Scene::new` on an empty object list (src/scene.rs lines 23-31):
the BVH is `BvhNode::default()`. -/
def Scene.newEmpty (background : Background) : Scene :=
  ⟨BvhNode.default, background⟩

/-- `Scene::new` on a one-object list: the BVH is `BvhNode::new` of that
list. -/
def Scene.newSingle (s : Sphere) (background : Background) : Scene :=
  ⟨BvhNode.newSingle s, background⟩

/-- The camera as the spec's opaque ray generator (external
collaborator). -/
structure Camera where
  getRay : ℝ → ℝ → Ray

/-- Embedding of `RayTracer` (src/raytracer.rs). -/
structure RayTracer where
  width : ℕ
  height : ℕ
  samples : ℕ
  maxReflections : ℕ
  camera : Camera
  scene : Scene

/-- `RayTracer::cast` (src/raytracer.rs lines 150-166): black at the
depth bound; on a scene hit, `attenuation * cast(scattered, depth+1)`
when the material scatters and black otherwise; on a miss, the
background color at `t = 0.5*(unit_direction.y + 1)`.  The per-call
random draws come from `σ depth`. -/
def RayTracer.cast (rt : RayTracer) (σ : ℕ → Rand) (ray : Ray)
    (depth : ℕ) : Color3 :=
  if _h : depth ≥ rt.maxReflections then
    Vec3.zero
  else
    match rt.scene.bvh.hit ray ((0.001 : ℝ) : RE) ⊤ with
    | some record =>
      match record.material.scatter (σ depth) ray record with
      | some (scattered, attenuation) =>
          attenuation * rt.cast σ scattered (depth + 1)
      | none => Vec3.zero
    | none =>
      let unitDirection := ray.direction.unit
      let t := 0.5 * (unitDirection.y + 1)
      rt.scene.background.color t
termination_by rt.maxReflections - depth
decreasing_by omega

/-- `NB_THREADS` (src/raytracer.rs line 13). -/
def nbThreads : ℕ := 10

/-- First scanline of worker `i` (src/raytracer.rs line 75). -/
def bandStart (height i : ℕ) : ℕ := i * height / nbThreads

/-- One-past-last scanline of worker `i` (src/raytracer.rs line 76). -/
def bandStop (height i : ℕ) : ℕ := (i + 1) * height / nbThreads

/-- Worker `i` renders exactly the scanlines `y` with
`bandStart ≤ y < bandStop`. -/
def inBand (height i y : ℕ) : Prop := bandStart height i ≤ y ∧ y < bandStop height i

/-! ### Basic algebraic lemmas -/

theorem Vec3.dot_neg_right (a b : Vec3) : a.dot (-b) = -(a.dot b) := by
  simp [Vec3.dot]; ring

/-! ### Claim C6: `Aabb::surrounding_box` -/

/-- C6: `surrounding_box(a, b)` has componentwise-min `min` and
componentwise-max `max`; it is commutative, and the union of a box with
itself is the box. -/
theorem C6_surrounding_box_spec (a b : Aabb) :
    (Aabb.surrounding_box a b).min =
        ⟨Min.min a.min.x b.min.x, Min.min a.min.y b.min.y,
          Min.min a.min.z b.min.z⟩ ∧
      (Aabb.surrounding_box a b).max =
        ⟨Max.max a.max.x b.max.x, Max.max a.max.y b.max.y,
          Max.max a.max.z b.max.z⟩ ∧
      Aabb.surrounding_box a b = Aabb.surrounding_box b a ∧
      Aabb.surrounding_box a a = a := by
  obtain ⟨⟨ax, ay, az⟩, ⟨ax', ay', az'⟩⟩ := a
  obtain ⟨⟨bx, by', bz⟩, ⟨bx', by2, bz'⟩⟩ := b
  refine ⟨rfl, rfl, ?_, ?_⟩ <;>
    simp [Aabb.surrounding_box, Aabb.new, min_comm, max_comm]

/-! ### Claim C5: `Metal::new` fuzziness -/

/-- C5 counterexample: `Metal::new` with fuzziness `-1` stores `-1`,
which does not lie in `[0, 1]`. -/
theorem C5_counterexample :
    Metal.new (Vec3.new 1 1 1) (-1) = Material.metal (Vec3.new 1 1 1) (-1) ∧
      ¬(0 : ℝ) ≤ -1 := by
  constructor
  · norm_num [Metal.new]
  · norm_num

/-- C5 amended: the constructor clamps the fuzziness from above only
(storing `1` when the argument exceeds `1`, the argument unchanged
otherwise), so the stored value always satisfies `stored ≤ 1`, and it
lies in `[0, 1]` whenever the argument is nonnegative. -/
theorem C5_metal_new_amended (albedo : Color3) (f : ℝ) (hf : 0 ≤ f) :
    Metal.new albedo f = Material.metal albedo (if f > 1 then 1 else f) ∧
      0 ≤ (if f > 1 then 1 else f) ∧ (if f > 1 then 1 else f) ≤ 1 := by
  refine ⟨rfl, ?_, ?_⟩ <;> split <;> norm_num <;> linarith

/-- C5 amended witness at fuzziness `2`. -/
theorem C5_witness :
    (0 : ℝ) ≤ 2 ∧
      (Metal.new (Vec3.new 1 1 1) 2 =
          Material.metal (Vec3.new 1 1 1)
            ((if (2 : ℝ) > 1 then 1 else 2) : ℝ) ∧
        (0 : ℝ) ≤ ((if (2 : ℝ) > 1 then 1 else 2) : ℝ) ∧
        ((if (2 : ℝ) > 1 then 1 else 2) : ℝ) ≤ 1) :=
  ⟨by norm_num, C5_metal_new_amended (Vec3.new 1 1 1) 2 (by norm_num)⟩

/-! ### Claim C3: `HitRecord::set_face_normal` -/

/-- C3 counterexample: with the ray direction `(1,0,0)` and normal
`(0,1,0)` the dot product after `set_face_normal` is `0`, not `< 0`. -/
theorem C3_counterexample :
    ¬((Ray.mk Vec3.zero (Vec3.new 1 0 0) 0).direction.dot
        ((HitRecord.new 1 Vec3.zero (Vec3.new 0 1 0) (0, 0)
            (Material.light (Texture.monochrome Vec3.zero))).set_face_normal
          (Ray.mk Vec3.zero (Vec3.new 1 0 0) 0)).normal < 0) := by
  simp [HitRecord.set_face_normal, HitRecord.new, Vec3.dot, Vec3.new,
    Vec3.zero]

/-- C3 amended: after `set_face_normal` the dot product of the ray
direction with the stored normal is `≤ 0` (strictly negative whenever the
incoming normal is not perpendicular to the direction), and `front_face`
is true exactly when the incoming normal already pointed against the ray
(no flip occurred). -/
theorem C3_set_face_normal_amended (ray : Ray) (rec : HitRecord) :
    ray.direction.dot (rec.set_face_normal ray).normal ≤ 0 ∧
      (ray.direction.dot rec.normal ≠ 0 →
        ray.direction.dot (rec.set_face_normal ray).normal < 0) ∧
      ((rec.set_face_normal ray).frontFace = true ↔
        ray.direction.dot rec.normal < 0) := by
  have hnorm : (rec.set_face_normal ray).normal =
      if ray.direction.dot rec.normal < 0 then rec.normal else -rec.normal := by
    unfold HitRecord.set_face_normal
    by_cases h : ray.direction.dot rec.normal < 0 <;> simp [h]
  have hface : (rec.set_face_normal ray).frontFace =
      decide (ray.direction.dot rec.normal < 0) := rfl
  rw [hnorm, hface]
  by_cases h : ray.direction.dot rec.normal < 0
  · rw [if_pos h]
    exact ⟨le_of_lt h, fun _ => h, by simp [h]⟩
  · rw [if_neg h, Vec3.dot_neg_right]
    push_neg at h
    refine ⟨by linarith, fun hne => ?_, by simp [not_lt.mpr h]⟩
    rcases lt_or_eq_of_le h with h' | h'
    · linarith
    · exact absurd h'.symm hne

/-- C3 amended witness: a concrete strictly-negative case. -/
theorem C3_witness :
    (Ray.mk Vec3.zero (Vec3.new 0 (-1) 0) 0).direction.dot
        (((HitRecord.new 1 Vec3.zero (Vec3.new 0 1 0) (0, 0)
            (Material.light (Texture.monochrome Vec3.zero))).set_face_normal
          (Ray.mk Vec3.zero (Vec3.new 0 (-1) 0) 0))).normal ≤ 0 :=
  (C3_set_face_normal_amended (Ray.mk Vec3.zero (Vec3.new 0 (-1) 0) 0)
      (HitRecord.new 1 Vec3.zero (Vec3.new 0 1 0) (0, 0)
        (Material.light (Texture.monochrome Vec3.zero)))).1

/-! ### Claim C4: `Dielectric::scatter` -/

/-- C4: a dielectric always scatters (never returns `None`) and its
attenuation is exactly white `(1,1,1)`, whichever of the reflection or
refraction branch is taken. -/
theorem C4_dielectric_scatter_white (refractiveIndex : ℝ) (rnd : Rand)
    (ray : Ray) (rec : HitRecord) :
    ∃ scattered : Ray,
      (Material.dielectric refractiveIndex).scatter rnd ray rec =
        some (scattered, Vec3.new 1 1 1) := by
  exact ⟨_, rfl⟩

/-! ### Claim C10: scanline partition across the worker threads -/

theorem bandStart_mono (height : ℕ) {i j : ℕ} (h : i ≤ j) :
    bandStart height i ≤ bandStart height j :=
  Nat.div_le_div_right (Nat.mul_le_mul_right _ h)

theorem bandStop_eq_bandStart_succ (height i : ℕ) :
    bandStop height i = bandStart height (i + 1) := rfl

theorem bandStart_nbThreads (height : ℕ) :
    bandStart height nbThreads = height := by
  unfold bandStart nbThreads
  omega

/-- C10: for every image height, the per-worker scanline ranges
`[i*h/10, (i+1)*h/10)` cover exactly the rows `0 ≤ y < h`, and no row
lies in two distinct workers' ranges — every row is assigned to exactly
one of the `NB_THREADS = 10` workers. -/
theorem C10_bands_partition (height : ℕ) :
    (∀ y, y < height ↔ ∃ i, i < nbThreads ∧ inBand height i y) ∧
      (∀ y i j, i < nbThreads → j < nbThreads → inBand height i y →
        inBand height j y → i = j) := by
  have hstop_le : ∀ i, i < nbThreads → bandStop height i ≤ height := by
    intro i hi
    rw [bandStop_eq_bandStart_succ]
    calc bandStart height (i + 1) ≤ bandStart height nbThreads :=
          bandStart_mono height (by omega)
      _ = height := bandStart_nbThreads height
  constructor
  · intro y
    constructor
    · intro hy
      have hP0 : bandStart height 0 ≤ y := by simp [bandStart]
      refine ⟨Nat.findGreatest (fun i => bandStart height i ≤ y) 9, ?_, ?_, ?_⟩
      · have := Nat.findGreatest_le (P := fun i => bandStart height i ≤ y)
          (n := 9)
        simp [nbThreads]
        omega
      · exact Nat.findGreatest_spec (P := fun i => bandStart height i ≤ y)
          (m := 0) (n := 9) (Nat.zero_le 9) hP0
      · set i := Nat.findGreatest (fun i => bandStart height i ≤ y) 9 with hi
        have hile : i ≤ 9 :=
          Nat.findGreatest_le (P := fun i => bandStart height i ≤ y) (n := 9)
        rcases Nat.lt_or_ge i 9 with h9 | h9
        · have hnP : ¬bandStart height (i + 1) ≤ y :=
            Nat.findGreatest_is_greatest
              (P := fun i => bandStart height i ≤ y) (n := 9)
              (Nat.lt_succ_self i) (by omega)
          rw [bandStop_eq_bandStart_succ]
          omega
        · have hi9 : i = 9 := by omega
          rw [bandStop_eq_bandStart_succ, hi9]
          show y < bandStart height 10
          have h10 := bandStart_nbThreads height
          unfold nbThreads at h10
          omega
    · rintro ⟨i, hi, _, h2⟩
      exact lt_of_lt_of_le h2 (hstop_le i hi)
  · intro y i j hi hj hyi hyj
    rcases lt_trichotomy i j with hij | hij | hij
    · exfalso
      have h1 : bandStop height i ≤ bandStart height j := by
        rw [bandStop_eq_bandStart_succ]
        exact bandStart_mono height (by omega)
      have := hyi.2
      have := hyj.1
      omega
    · exact hij
    · exfalso
      have h1 : bandStop height j ≤ bandStart height i := by
        rw [bandStop_eq_bandStart_succ]
        exact bandStart_mono height (by omega)
      have := hyj.2
      have := hyi.1
      omega

/-- C10 witness: at height 7 (not divisible by 10 and smaller than 10),
row 3 is assigned to some worker. -/
theorem C10_witness : ∃ i, i < nbThreads ∧ inBand 7 i 3 :=
  ((C10_bands_partition 7).1 3).mp (by norm_num)

/-! ### Claim C8: the integrator terminates at the depth bound -/

/-- C8: `cast` is a total function (its Lean definition recurses on
`max_reflections - depth`, which the single recursive call at `depth + 1`
strictly decreases while `depth < max_reflections`); it returns black as
soon as `depth ≥ max_reflections`, and below the bound it performs one
step whose only recursive occurrence is at `depth + 1`. -/
theorem C8_cast_depth_bound (rt : RayTracer) (σ : ℕ → Rand) (ray : Ray)
    (depth : ℕ) :
    (rt.maxReflections ≤ depth → rt.cast σ ray depth = Vec3.zero) ∧
      (depth < rt.maxReflections →
        rt.cast σ ray depth =
          match rt.scene.bvh.hit ray ((0.001 : ℝ) : RE) ⊤ with
          | some record =>
            match record.material.scatter (σ depth) ray record with
            | some (scattered, attenuation) =>
                attenuation * rt.cast σ scattered (depth + 1)
            | none => Vec3.zero
          | none =>
            rt.scene.background.color (0.5 * (ray.direction.unit.y + 1))) := by
  constructor
  · intro h
    rw [RayTracer.cast, dif_pos h]
  · intro h
    rw [RayTracer.cast, dif_neg (by omega)]

/-- C8 witness: with the bound `max_reflections = 0`, casting at depth 0
returns black immediately. -/
theorem C8_witness :
    (RayTracer.mk 1 1 1 0 (Camera.mk fun _ _ => Ray.mk Vec3.zero
          (Vec3.new 1 0 0) 0)
        (Scene.newEmpty (Background.Color Vec3.zero))).cast
      (fun _ => Rand.mk Vec3.zero Vec3.zero 0)
      (Ray.mk Vec3.zero (Vec3.new 1 0 0) 0) 0 = Vec3.zero :=
  (C8_cast_depth_bound _ _ _ _).1 (Nat.le_refl 0)

/-! ### Claim C9: empty scene renders the background gradient -/

theorem hit_default_none (ray : Ray) (tmin tmax : RE) :
    BvhNode.default.hit ray tmin tmax = none := by
  unfold BvhNode.default Hitable.hit
  simp

/-- C9: for a scene built from an empty object list (whose BVH is
`BvhNode::default()`), `cast` below the depth bound returns the
background color at `t = 0.5*(unit_direction.y + 1)` for every ray. -/
theorem C9_cast_empty_scene (rt : RayTracer) (σ : ℕ → Rand) (ray : Ray)
    (depth : ℕ) (bg : Background) (hscene : rt.scene = Scene.newEmpty bg)
    (hdepth : depth < rt.maxReflections) :
    rt.cast σ ray depth = bg.color (0.5 * (ray.direction.unit.y + 1)) := by
  rw [RayTracer.cast, dif_neg (by omega), hscene]
  simp [Scene.newEmpty, hit_default_none]

/-- C9 witness: a concrete empty-scene render of a vertical ray against a
gradient background returns the top gradient color. -/
theorem C9_witness :
    (RayTracer.mk 2 2 1 50
          (Camera.mk fun _ _ => Ray.mk Vec3.zero (Vec3.new 0 1 0) 0)
          (Scene.newEmpty
            (Background.Gradient (Vec3.new 1 0 0) (Vec3.new 0 0 1)))).cast
        (fun _ => Rand.mk Vec3.zero Vec3.zero 0)
        (Ray.mk Vec3.zero (Vec3.new 0 1 0) 0) 0 = Vec3.new 1 0 0 := by
  rw [C9_cast_empty_scene _ (fun _ => Rand.mk Vec3.zero Vec3.zero 0)
    (Ray.mk Vec3.zero (Vec3.new 0 1 0) 0) 0
    (Background.Gradient (Vec3.new 1 0 0) (Vec3.new 0 0 1)) rfl
    (by norm_num)]
  norm_num [Background.color, Vec3.unit, Vec3.isZero, Vec3.new, Vec3.zero,
    Vec3.divScalar, Vec3.length, Real.sqrt_one]

/-! ### Claim C1: the integrator and emitted light -/

/-- A sphere carrying a pure emitter (`Light`) material with radiance
`(4,4,4)` — the C1 scenario. -/
def lightSphere : Sphere :=
  ⟨Vec3.new 0 0 (-5), 1, .light (.monochrome (Vec3.new 4 4 4))⟩

/-- A ray from the origin straight at `lightSphere`. -/
def lightRay : Ray := ⟨Vec3.zero, Vec3.new 0 0 (-1), 0⟩

/-- A render job whose scene holds only `lightSphere`. -/
def lightSceneRt : RayTracer :=
  ⟨1, 1, 1, 50, ⟨fun _ _ => lightRay⟩,
    Scene.newSingle lightSphere (Background.Color Vec3.zero)⟩

/-- The hit record `Sphere::hit` produces for `lightRay` against
`lightSphere`. -/
def lightHitRecord : HitRecord :=
  ⟨4, Vec3.new 0 0 (-4), Vec3.new 0 0 1,
    Sphere.get_texture_coordinates (Vec3.new 0 0 1), true,
    .light (.monochrome (Vec3.new 4 4 4))⟩

theorem lightSphere_hit :
    lightSphere.hit lightRay ((0.001 : ℝ) : RE) ⊤ = some lightHitRecord := by
  unfold lightSphere lightRay lightHitRecord Sphere.hit
  norm_num [Vec3.dot, Vec3.square, Vec3.new, Vec3.zero, Real.sqrt_one,
    WithTop.coe_lt_coe, Ray.point, Vec3.divScalar, HitRecord.new,
    HitRecord.set_face_normal]
  refine ⟨4, ?_, rfl, ?_, by norm_num, by norm_num⟩
  · rw [if_neg]
    rw [show ((4 : RE)) = (((4 : ℝ)) : RE) from rfl, WithTop.coe_lt_coe]
    norm_num
  · rw [if_pos (by norm_num : (4 : ℝ) < 5)]
    norm_num

theorem lightSphere_box_hit :
    lightSphere.bounding_box.rayHit lightRay ((0.001 : ℝ) : RE) ⊤ := by
  intro axis
  fin_cases axis <;>
    norm_num [Aabb.axisHit, Vec3.nth, Sphere.bounding_box, Aabb.new,
      lightSphere, lightRay, Vec3.new, Vec3.zero, WithTop.coe_lt_top]
  constructor
  · rw [show ((4 : RE)) = (((4 : ℝ)) : RE) from rfl,
      show ((6 : RE)) = (((6 : ℝ)) : RE) from rfl, WithTop.coe_lt_coe]
    norm_num
  · rw [show ((6 : RE)) = (((6 : ℝ)) : RE) from rfl, WithTop.coe_lt_coe]
    norm_num

theorem lightScene_bvh_hit :
    (BvhNode.newSingle lightSphere).hit lightRay ((0.001 : ℝ) : RE) ⊤ =
      some lightHitRecord := by
  unfold BvhNode.newSingle Hitable.hit
  rw [if_neg]
  · dsimp only
    rw [show Hitable.hit (.obj lightSphere) lightRay ((0.001 : ℝ) : RE) ⊤ =
        lightSphere.hit lightRay ((0.001 : ℝ) : RE) ⊤ from rfl,
      lightSphere_hit]
    rfl
  · simp only [mkBbox, Hitable.bounding_box, Option.elim, not_not]
    exact lightSphere_box_hit

/-- C1 (code bug): on a hit whose material is a pure emitter, `cast`
returns black instead of the material's emitted color — the integrator
never calls `Material::emitted`, so the `Light` material's nonzero
radiance `(4,4,4)` is dropped. -/
theorem C1_cast_drops_emitted :
    (∀ σ : ℕ → Rand, lightSceneRt.cast σ lightRay 0 = Vec3.zero) ∧
      (∀ (uv : ℝ × ℝ) (p : Point3),
        lightSphere.material.emitted uv p = Vec3.new 4 4 4) ∧
      Vec3.new 4 4 4 ≠ Vec3.zero := by
  refine ⟨?_, ?_, ?_⟩
  · intro σ
    rw [RayTracer.cast, dif_neg (by norm_num [lightSceneRt])]
    have hscene : lightSceneRt.scene.bvh = BvhNode.newSingle lightSphere :=
      rfl
    rw [hscene, lightScene_bvh_hit]
    rfl
  · intro uv p
    simp [Material.emitted, Texture.value, lightSphere]
  · simp [Vec3.new, Vec3.zero]

/-! ### Claim C7: ray through a sphere's center -/

/-- The quantity `discriminant_over_4` computed by `Sphere::hit`
(src/objects/sphere.rs lines 74-78). -/
def Sphere.discriminantOver4 (s : Sphere) (ray : Ray) : ℝ :=
  let oc := ray.origin - s.center
  let a := ray.direction.square
  let halfB := oc.dot ray.direction
  let c := oc.square - s.radius * s.radius
  halfB * halfB - a * c

theorem Vec3.square_smul (r : ℝ) (v : Vec3) :
    (r • v).square = r * r * v.square := by
  simp [Vec3.square]
  ring

theorem Vec3.dot_smul_right (a : Vec3) (r : ℝ) (b : Vec3) :
    a.dot (r • b) = r * a.dot b := by
  simp [Vec3.dot]
  ring

theorem Vec3.dot_self (a : Vec3) : a.dot a = a.square := rfl

/-- The `t` value of `Sphere::hit` as the source's root-selection
if-chain. -/
theorem Sphere.hit_t_eq (s : Sphere) (ray : Ray) (tmin tmax : RE) :
    (s.hit ray tmin tmax).map (fun rec => rec.t) =
      (let oc := ray.origin - s.center
       let a := ray.direction.square
       let halfB := oc.dot ray.direction
       let c := oc.square - s.radius * s.radius
       let disc := halfB * halfB - a * c
       if disc < 0 then none
       else
         let invA := 1 / a
         let sq := Real.sqrt disc
         let root1 := (-halfB - sq) * invA
         let root2 := (-halfB + sq) * invA
         if (root1 : RE) < tmin ∨ tmax < (root1 : RE) then
           if (root2 : RE) < tmin ∨ tmax < (root2 : RE) then none
           else some root2
         else some root1) := by
  unfold Sphere.hit
  dsimp only
  split_ifs <;> simp [HitRecord.new, HitRecord.set_face_normal]

/-- C7 amended: for a sphere of radius `r > 0` and a ray whose
unit-length direction points from the origin through the center sitting
at distance `d > r`, the solved quadratic has discriminant `r²` (two real
roots `d - r` and `d + r`), `hit` returns the smaller root when it is not
outside `[t_min, t_max]`, falls back to the larger root, and returns
`None` when both are outside; and on any ray with a negative
discriminant, `hit` returns `None`. -/
theorem C7_sphere_hit_through_center (s : Sphere) (ray : Ray) (d : ℝ)
    (tmin tmax : RE) (hr : 0 < s.radius) (hd : s.radius < d)
    (hdist : (s.center - ray.origin).length = d)
    (hdir : ray.direction = (s.center - ray.origin).divScalar d) :
    s.discriminantOver4 ray = s.radius * s.radius ∧
      (s.hit ray tmin tmax).map (fun rec => rec.t) =
        (if ((d - s.radius : ℝ) : RE) < tmin ∨
            tmax < ((d - s.radius : ℝ) : RE) then
          if ((d + s.radius : ℝ) : RE) < tmin ∨
              tmax < ((d + s.radius : ℝ) : RE) then none
          else some (d + s.radius)
        else some (d - s.radius)) ∧
      (∀ (s' : Sphere) (ray' : Ray) (tmin' tmax' : RE),
        s'.discriminantOver4 ray' < 0 → s'.hit ray' tmin' tmax' = none) := by
  have hd0 : 0 < d := lt_trans hr hd
  have hd0' : d ≠ 0 := ne_of_gt hd0
  have husq : (s.center - ray.origin).square = d * d := by
    have hnn : 0 ≤ (s.center - ray.origin).square := by
      simp only [Vec3.square, Vec3.sub_def]
      nlinarith [mul_self_nonneg (s.center.x - ray.origin.x),
        mul_self_nonneg (s.center.y - ray.origin.y),
        mul_self_nonneg (s.center.z - ray.origin.z)]
    have h1 : Real.sqrt ((s.center - ray.origin).square) = d := hdist
    have h2 := Real.sq_sqrt hnn
    rw [h1] at h2
    nlinarith [h2]
  have hocsq : (ray.origin - s.center).square = d * d := by
    simp only [Vec3.square, Vec3.sub_def] at husq ⊢
    linear_combination husq
  have ha : ray.direction.square = 1 := by
    rw [hdir]
    unfold Vec3.divScalar
    rw [Vec3.square_smul, husq]
    field_simp
  have hhb : (ray.origin - s.center).dot ray.direction = -d := by
    rw [hdir]
    unfold Vec3.divScalar
    rw [Vec3.dot_smul_right]
    have hdot : (ray.origin - s.center).dot (s.center - ray.origin) =
        -((s.center - ray.origin).square) := by
      simp only [Vec3.dot, Vec3.square, Vec3.sub_def]
      ring
    rw [hdot, husq]
    field_simp
  have hmiss : ∀ (s' : Sphere) (ray' : Ray) (tmin' tmax' : RE),
      s'.discriminantOver4 ray' < 0 → s'.hit ray' tmin' tmax' = none := by
    intro s' ray' tmin' tmax' h
    unfold Sphere.hit
    rw [if_pos]
    exact h
  have hdisc : s.discriminantOver4 ray = s.radius * s.radius := by
    unfold Sphere.discriminantOver4
    dsimp only
    rw [hhb, ha, hocsq]
    ring
  refine ⟨hdisc, ?_, hmiss⟩
  rw [Sphere.hit_t_eq]
  dsimp only
  rw [hhb, ha, hocsq]
  rw [show -d * -d - 1 * (d * d - s.radius * s.radius) =
      s.radius * s.radius by ring]
  rw [if_neg (by nlinarith)]
  rw [Real.sqrt_mul_self hr.le]
  rw [show (- -d - s.radius) * (1 / 1) = d - s.radius by ring]
  rw [show (- -d + s.radius) * (1 / 1) = d + s.radius by ring]

/-- C7 counterexample: with center distance 2, radius 1, `t_min = 1` and
`t_max = 10`, the smaller root `1` does not lie in the open interval
`(1, 10)` — the claim then demands the larger root `3` — but `hit`
returns `t = 1` (the code accepts roots on the closed interval
boundary). -/
theorem C7_counterexample :
    ((Sphere.mk (Vec3.new 0 0 (-2)) 1
          (Material.light (Texture.monochrome Vec3.zero))).hit
        (Ray.mk Vec3.zero (Vec3.new 0 0 (-1)) 0) ((1 : ℝ) : RE)
        ((10 : ℝ) : RE)).map (fun rec => rec.t) = some 1 ∧
      ¬((1 : ℝ) < 1) := by
  constructor
  · rw [Sphere.hit_t_eq]
    norm_num [Vec3.dot, Vec3.square, Vec3.new, Vec3.zero, Real.sqrt_one,
      WithTop.coe_lt_coe]
  · norm_num

/-- C7 amended witness: center at distance 3, radius 1, interval
`[1, 10]`: the smaller root `2` is returned. -/
theorem C7_witness :
    (0 : ℝ) < 1 ∧ (1 : ℝ) < 3 ∧
      (Vec3.new 0 0 (-3) - Vec3.zero).length = 3 ∧
      Vec3.new 0 0 (-1) = (Vec3.new 0 0 (-3) - Vec3.zero).divScalar 3 ∧
      ((Sphere.mk (Vec3.new 0 0 (-3)) 1
            (Material.light (Texture.monochrome Vec3.zero))).discriminantOver4
          (Ray.mk Vec3.zero (Vec3.new 0 0 (-1)) 0) = 1 * 1 ∧
        ((Sphere.mk (Vec3.new 0 0 (-3)) 1
              (Material.light (Texture.monochrome Vec3.zero))).hit
            (Ray.mk Vec3.zero (Vec3.new 0 0 (-1)) 0) ((1 : ℝ) : RE)
            ((10 : ℝ) : RE)).map (fun rec => rec.t) =
          (if ((3 - 1 : ℝ) : RE) < ((1 : ℝ) : RE) ∨
              ((10 : ℝ) : RE) < ((3 - 1 : ℝ) : RE) then
            if ((3 + 1 : ℝ) : RE) < ((1 : ℝ) : RE) ∨
                ((10 : ℝ) : RE) < ((3 + 1 : ℝ) : RE) then none
            else some (3 + 1)
          else some (3 - 1)) ∧
        (∀ (s' : Sphere) (ray' : Ray) (tmin' tmax' : RE),
          s'.discriminantOver4 ray' < 0 →
            s'.hit ray' tmin' tmax' = none)) := by
  have hlen : (Vec3.new 0 0 (-3) - Vec3.zero).length = 3 := by
    norm_num [Vec3.length, Vec3.new, Vec3.zero]
    rw [show (9 : ℝ) = 3 ^ 2 by norm_num, Real.sqrt_sq (by norm_num)]
  have hdir : Vec3.new 0 0 (-1) = (Vec3.new 0 0 (-3) - Vec3.zero).divScalar 3
      := by
    norm_num [Vec3.divScalar, Vec3.new, Vec3.zero]
  exact ⟨by norm_num, by norm_num, hlen, hdir,
    C7_sphere_hit_through_center
      (Sphere.mk (Vec3.new 0 0 (-3)) 1
        (Material.light (Texture.monochrome Vec3.zero)))
      (Ray.mk Vec3.zero (Vec3.new 0 0 (-1)) 0) 3 ((1 : ℝ) : RE)
      ((10 : ℝ) : RE) (by norm_num) (by norm_num) hlen hdir⟩

/-! ### Claim C2: BVH traversal vs. brute-force scan

Infrastructure: the intersection parameters (quadratic roots) of a
sphere, and the specification predicate `BestHit` stating that an
optional `t` value is the least intersection parameter not outside the
queried interval (the code accepts parameters on the closed interval
`[t_min, t_max]`). -/

/-- The real roots the `Sphere::hit` quadratic can return (both roots,
in increasing order), before interval filtering. -/
def Sphere.roots (s : Sphere) (ray : Ray) : List ℝ :=
  let oc := ray.origin - s.center
  let a := ray.direction.square
  let halfB := oc.dot ray.direction
  let c := oc.square - s.radius * s.radius
  let disc := halfB * halfB - a * c
  if disc < 0 then []
  else
    [(-halfB - Real.sqrt disc) * (1 / a), (-halfB + Real.sqrt disc) * (1 / a)]

/-- The interval-acceptance test of the source (`!(t < t_min || t_max < t)`). -/
def notOutside (tmin tmax : RE) (t : ℝ) : Prop :=
  ¬((t : RE) < tmin ∨ tmax < (t : RE))

theorem notOutside_iff (tmin tmax : RE) (t : ℝ) :
    notOutside tmin tmax t ↔ tmin ≤ (t : RE) ∧ (t : RE) ≤ tmax := by
  unfold notOutside
  push_neg
  simp [not_lt]

/-- `o` is the least accepted intersection parameter among `roots` (or
`none` when no parameter is accepted). -/
def BestHit (o : Option ℝ) (roots : List ℝ) (tmin tmax : RE) : Prop :=
  match o with
  | none => ∀ u ∈ roots, ¬notOutside tmin tmax u
  | some t => t ∈ roots ∧ notOutside tmin tmax t ∧
      ∀ u ∈ roots, notOutside tmin tmax u → t ≤ u

/-- Like `BestHit`, but also allowing the query to return nothing when
the least accepted parameter sits exactly at the `t_max` bound (the
boundary case the BVH box test can prune). -/
def BestHitPruned (o : Option ℝ) (roots : List ℝ) (tmin tmax : RE) :
    Prop :=
  BestHit o roots tmin tmax ∨
    (o = none ∧ ∃ t : ℝ, (t : RE) = tmax ∧ t ∈ roots ∧
      notOutside tmin tmax t ∧
      ∀ u ∈ roots, notOutside tmin tmax u → t ≤ u)

/-- `Sphere::hit` returns exactly the least accepted root. -/
theorem Sphere.hit_bestHit (s : Sphere) (ray : Ray) (tmin tmax : RE)
    (ha : 0 < ray.direction.square) :
    BestHit ((s.hit ray tmin tmax).map (fun rec => rec.t)) (s.roots ray)
      tmin tmax := by
  rw [Sphere.hit_t_eq]
  unfold Sphere.roots
  dsimp only
  by_cases hdisc :
      (ray.origin - s.center).dot ray.direction *
            ((ray.origin - s.center).dot ray.direction) -
          ray.direction.square *
            ((ray.origin - s.center).square - s.radius * s.radius) < 0
  · rw [if_pos hdisc, if_pos hdisc]
    intro u hu
    simp at hu
  · rw [if_neg hdisc, if_neg hdisc]
    set halfB := (ray.origin - s.center).dot ray.direction with hhB
    set disc := halfB * halfB -
      ray.direction.square *
        ((ray.origin - s.center).square - s.radius * s.radius) with hdd
    set r1 := (-halfB - Real.sqrt disc) * (1 / ray.direction.square) with hr1
    set r2 := (-halfB + Real.sqrt disc) * (1 / ray.direction.square) with hr2
    have hord : r1 ≤ r2 := by
      rw [hr1, hr2]
      have hsq : 0 ≤ Real.sqrt disc := Real.sqrt_nonneg _
      have hpos : 0 < 1 / ray.direction.square := by positivity
      nlinarith
    by_cases h1 : (r1 : RE) < tmin ∨ tmax < (r1 : RE)
    · rw [if_pos h1]
      by_cases h2 : (r2 : RE) < tmin ∨ tmax < (r2 : RE)
      · rw [if_pos h2]
        intro u hu
        simp only [List.mem_cons, List.mem_singleton] at hu
        rcases hu with rfl | hu
        · exact fun hno => hno h1
        · simp at hu
          subst hu
          exact fun hno => hno h2
      · rw [if_neg h2]
        refine ⟨by simp, h2, ?_⟩
        intro u hu hno
        simp only [List.mem_cons, List.mem_singleton] at hu
        rcases hu with rfl | hu
        · exact absurd h1 hno
        · simp at hu
          subst hu
          exact le_refl _
    · rw [if_neg h1]
      refine ⟨by simp, h1, ?_⟩
      intro u hu hno
      simp only [List.mem_cons, List.mem_singleton] at hu
      rcases hu with rfl | hu
      · exact le_refl _
      · simp at hu
        subst hu
        exact hord

/-- All roots of a list of spheres, in list order. -/
def sceneRoots (l : List Sphere) (ray : Ray) : List ℝ :=
  (l.map (fun s => s.roots ray)).flatten

theorem sceneRoots_nil (ray : Ray) : sceneRoots [] ray = [] := rfl

theorem sceneRoots_cons (s : Sphere) (l : List Sphere) (ray : Ray) :
    sceneRoots (s :: l) ray = s.roots ray ++ sceneRoots l ray := by
  simp [sceneRoots]

/-- One step of the linear scan preserves the best-hit invariant. -/
theorem listHit_step (ray : Ray) (tmin tmax : RE)
    (ha : 0 < ray.direction.square) (acc : Option HitRecord) (S : List ℝ)
    (s : Sphere)
    (hacc : BestHit (acc.map (fun rec => rec.t)) S tmin tmax) :
    BestHit
      (Option.map (fun rec : HitRecord => rec.t)
        (match s.hit ray tmin (acc.elim tmax fun r => (r.t : RE)) with
        | some record => some record
        | none => acc))
      (S ++ s.roots ray) tmin tmax := by
  cases acc with
  | none =>
    have hs := Sphere.hit_bestHit s ray tmin tmax ha
    simp only [Option.elim]
    cases h : s.hit ray tmin tmax with
    | none =>
      rw [h] at hs
      intro u hu
      rcases List.mem_append.mp hu with hu | hu
      · exact hacc u hu
      · exact hs u hu
    | some r =>
      rw [h] at hs
      obtain ⟨hmem, hno, hmin⟩ := hs
      refine ⟨List.mem_append.mpr (Or.inr hmem), hno, ?_⟩
      intro u hu hnu
      rcases List.mem_append.mp hu with hu | hu
      · exact absurd hnu (hacc u hu)
      · exact hmin u hu hnu
  | some recA =>
    obtain ⟨hmemA, hnoA, hminA⟩ := hacc
    have hs := Sphere.hit_bestHit s ray tmin ((recA.t : RE)) ha
    simp only [Option.elim]
    cases h : s.hit ray tmin ((recA.t : RE)) with
    | none =>
      rw [h] at hs
      refine ⟨List.mem_append.mpr (Or.inl hmemA), hnoA, ?_⟩
      intro u hu hnu
      rcases List.mem_append.mp hu with hu | hu
      · exact hminA u hu hnu
      · by_contra hlt
        push_neg at hlt
        refine hs u hu ?_
        rw [notOutside_iff] at hnu ⊢
        exact ⟨hnu.1, le_of_lt (WithTop.coe_lt_coe.mpr hlt)⟩
    | some r =>
      rw [h] at hs
      obtain ⟨hmem, hno, hmin⟩ := hs
      have hno' := (notOutside_iff _ _ _).mp hno
      have hle : r.t ≤ recA.t := WithTop.coe_le_coe.mp hno'.2
      refine ⟨List.mem_append.mpr (Or.inr hmem), ?_, ?_⟩
      · rw [notOutside_iff]
        have hnoA' := (notOutside_iff _ _ _).mp hnoA
        exact ⟨hno'.1, le_trans hno'.2 hnoA'.2⟩
      · intro u hu hnu
        rcases List.mem_append.mp hu with hu | hu
        · exact le_trans hle (hminA u hu hnu)
        · rcases le_or_lt u recA.t with h' | h'
          · refine hmin u hu ?_
            rw [notOutside_iff] at hnu ⊢
            exact ⟨hnu.1, WithTop.coe_le_coe.mpr h'⟩
          · exact le_trans hle (le_of_lt h')

theorem listHit_fold (ray : Ray) (tmin tmax : RE)
    (ha : 0 < ray.direction.square) :
    ∀ (l : List Sphere) (acc : Option HitRecord) (S : List ℝ),
      BestHit (acc.map (fun rec => rec.t)) S tmin tmax →
      BestHit
        ((l.foldl
            (fun closestRecord hitable =>
              match hitable.hit ray tmin
                  (closestRecord.elim tmax fun r => (r.t : RE)) with
              | some record => some record
              | none => closestRecord)
            acc).map (fun rec => rec.t))
        (S ++ sceneRoots l ray) tmin tmax := by
  intro l
  induction l with
  | nil =>
    intro acc S h
    simpa [sceneRoots] using h
  | cons s rest ih =>
    intro acc S h
    rw [List.foldl_cons]
    have hstep := listHit_step ray tmin tmax ha acc S s h
    have hrec := ih _ _ hstep
    rw [sceneRoots_cons, ← List.append_assoc]
    exact hrec

/-- The brute-force scan `Vec::hit` returns exactly the least accepted
root over all spheres. -/
theorem listHit_bestHit (l : List Sphere) (ray : Ray) (tmin tmax : RE)
    (ha : 0 < ray.direction.square) :
    BestHit ((listHit l ray tmin tmax).map (fun rec => rec.t))
      (sceneRoots l ray) tmin tmax := by
  have h0 : BestHit ((none : Option HitRecord).map (fun rec => rec.t)) []
      tmin tmax := by
    intro u hu
    simp at hu
  have := listHit_fold ray tmin tmax ha l none [] h0
  simpa [listHit] using this

/-- All sphere roots stored in a BVH subtree. -/
def Hitable.rootsT : Hitable → Ray → List ℝ
  | .obj s, ray => s.roots ray
  | .node _ left right, ray =>
      (match left with
        | none => []
        | some l => l.rootsT ray) ++
      (match right with
        | none => []
        | some r => r.rootsT ray)

/-- Closed-box membership of a point, per axis. -/
def Aabb.containsPt (b : Aabb) (p : Vec3) : Prop :=
  ∀ axis : Fin 3,
    b.min.nth axis ≤ p.nth axis ∧ p.nth axis ≤ b.max.nth axis

/-- A box with positive extent on every axis. -/
def Aabb.thick (b : Aabb) : Prop :=
  ∀ axis : Fin 3, b.min.nth axis < b.max.nth axis

/-- `b1` is contained in `b2`, per axis. -/
def Aabb.subBox (b1 b2 : Aabb) : Prop :=
  ∀ axis : Fin 3,
    b2.min.nth axis ≤ b1.min.nth axis ∧ b1.max.nth axis ≤ b2.max.nth axis

theorem Aabb.subBox_refl (b : Aabb) : b.subBox b := fun _ => ⟨le_refl _, le_refl _⟩

theorem Aabb.subBox_trans {b1 b2 b3 : Aabb} (h12 : b1.subBox b2)
    (h23 : b2.subBox b3) : b1.subBox b3 := fun axis =>
  ⟨le_trans (h23 axis).1 (h12 axis).1, le_trans (h12 axis).2 (h23 axis).2⟩

theorem Aabb.subBox_surrounding_left (b0 b1 : Aabb) :
    b0.subBox (Aabb.surrounding_box b0 b1) := by
  intro axis
  fin_cases axis <;>
    exact ⟨by simp [Aabb.surrounding_box, Aabb.new, Vec3.nth],
      by simp [Aabb.surrounding_box, Aabb.new, Vec3.nth]⟩

theorem Aabb.subBox_surrounding_right (b0 b1 : Aabb) :
    b1.subBox (Aabb.surrounding_box b0 b1) := by
  intro axis
  fin_cases axis <;>
    exact ⟨by simp [Aabb.surrounding_box, Aabb.new, Vec3.nth],
      by simp [Aabb.surrounding_box, Aabb.new, Vec3.nth]⟩

theorem Aabb.thick_of_subBox {b1 b2 : Aabb} (hs : b1.subBox b2)
    (ht : b1.thick) : b2.thick := fun axis =>
  lt_of_le_of_lt (hs axis).1 (lt_of_lt_of_le (ht axis) (hs axis).2)

theorem Aabb.containsPt_of_subBox {b1 b2 : Aabb} {p : Vec3}
    (hs : b1.subBox b2) (hc : b1.containsPt p) : b2.containsPt p :=
  fun axis => ⟨le_trans (hs axis).1 (hc axis).1,
    le_trans (hc axis).2 (hs axis).2⟩

/-- A root of the sphere quadratic is an actual point of the sphere:
its hit point satisfies `|p - center|² = r²`. -/
theorem Sphere.root_on_sphere (s : Sphere) (ray : Ray)
    (ha : 0 < ray.direction.square) (t : ℝ) (ht : t ∈ s.roots ray) :
    (ray.point t - s.center).square = s.radius * s.radius := by
  unfold Sphere.roots at ht
  dsimp only at ht
  set halfB := (ray.origin - s.center).dot ray.direction with hhB
  set c := (ray.origin - s.center).square - s.radius * s.radius with hc
  set disc := halfB * halfB - ray.direction.square * c with hdd
  by_cases hdisc : disc < 0
  · rw [if_pos hdisc] at ht
    simp at ht
  · rw [if_neg hdisc] at ht
    have hsq2 : Real.sqrt disc * Real.sqrt disc = disc :=
      Real.mul_self_sqrt (not_lt.mp hdisc)
    have hane : ray.direction.square ≠ 0 := ne_of_gt ha
    have key : ray.direction.square * (t * t) + 2 * halfB * t + c = 0 := by
      simp only [List.mem_cons, List.mem_singleton] at ht
      rcases ht with rfl | ht
      · field_simp
        nlinarith [hsq2]
      · simp at ht
        subst ht
        field_simp
        nlinarith [hsq2]
    have expand : (ray.point t - s.center).square =
        ray.direction.square * (t * t) + 2 * halfB * t +
          (ray.origin - s.center).square := by
      rw [hhB]
      simp only [Ray.point, Vec3.square, Vec3.dot, Vec3.sub_def,
        Vec3.add_def, Vec3.smul_def]
      ring
    rw [expand]
    rw [hc] at key
    linarith [key]

/-- Conservativeness: a sphere root's hit point lies in the sphere's
bounding box. -/
theorem Sphere.root_in_box (s : Sphere) (ray : Ray) (hr : 0 < s.radius)
    (ha : 0 < ray.direction.square) (t : ℝ) (ht : t ∈ s.roots ray) :
    s.bounding_box.containsPt (ray.point t) := by
  have hsq := Sphere.root_on_sphere s ray ha t ht
  simp only [Vec3.square, Vec3.sub_def] at hsq
  intro axis
  unfold Sphere.bounding_box Aabb.new
  fin_cases axis <;>
    constructor <;>
    · simp only [Vec3.nth, Vec3.sub_def, Vec3.add_def, Vec3.new]
      nlinarith [hsq,
        mul_self_nonneg ((ray.point t).x - s.center.x),
        mul_self_nonneg ((ray.point t).y - s.center.y),
        mul_self_nonneg ((ray.point t).z - s.center.z)]

/-- The sphere's bounding box is thick when the radius is positive. -/
theorem Sphere.box_thick (s : Sphere) (hr : 0 < s.radius) :
    s.bounding_box.thick := by
  intro axis
  unfold Sphere.bounding_box Aabb.new
  fin_cases axis <;>
    · simp only [Vec3.nth, Vec3.sub_def, Vec3.add_def, Vec3.new]
      linarith

theorem Ray.point_nth (ray : Ray) (t : ℝ) (axis : Fin 3) :
    (ray.point t).nth axis =
      ray.origin.nth axis + t * ray.direction.nth axis := by
  fin_cases axis <;> simp [Ray.point, Vec3.nth]

/-- If the parameter `t` lies strictly inside `(tmin, tm)` and the point
at `t` lies in a slab of positive extent, the slab test passes. -/
theorem Aabb.axisHit_of_point (mn mx o d : ℝ) (tmin tm : RE) (t : ℝ)
    (hmn : mn < mx) (hin1 : mn ≤ o + t * d) (hin2 : o + t * d ≤ mx)
    (htmin : tmin < (t : RE)) (htm : (t : RE) < tm) :
    Aabb.axisHit mn mx o d tmin tm := by
  unfold Aabb.axisHit
  by_cases hd : d = 0
  · rw [if_pos hd]
    subst hd
    refine ⟨by linarith, by linarith, lt_trans htmin htm⟩
  · rw [if_neg hd]
    dsimp only
    rcases lt_or_gt_of_ne hd with hdneg | hdpos
    · have hinv : d⁻¹ < 0 := inv_lt_zero.mpr hdneg
      rw [if_pos hinv, if_pos hinv, not_le]
      have h1 : (mx - o) * d⁻¹ ≤ t := by
        rw [← div_eq_mul_inv, div_le_iff_of_neg hdneg]
        linarith
      have h2 : t ≤ (mn - o) * d⁻¹ := by
        rw [← div_eq_mul_inv, le_div_iff_of_neg hdneg]
        linarith
      have h3 : (mx - o) * d⁻¹ < (mn - o) * d⁻¹ :=
        mul_lt_mul_of_neg_right (by linarith) hinv
      apply max_lt
      · apply lt_min
        · exact WithTop.coe_lt_coe.mpr h3
        · exact lt_of_le_of_lt (WithTop.coe_le_coe.mpr h1) htm
      · apply lt_min
        · exact lt_of_lt_of_le htmin (WithTop.coe_le_coe.mpr h2)
        · exact lt_trans htmin htm
    · have hinv : ¬(d⁻¹ < 0) := not_lt.mpr (le_of_lt (inv_pos.mpr hdpos))
      rw [if_neg hinv, if_neg hinv, not_le]
      have h1 : (mn - o) * d⁻¹ ≤ t := by
        rw [← div_eq_mul_inv, div_le_iff₀ hdpos]
        linarith
      have h2 : t ≤ (mx - o) * d⁻¹ := by
        rw [← div_eq_mul_inv, le_div_iff₀ hdpos]
        linarith
      have h3 : (mn - o) * d⁻¹ < (mx - o) * d⁻¹ :=
        mul_lt_mul_of_pos_right (by linarith) (inv_pos.mpr hdpos)
      apply max_lt
      · apply lt_min
        · exact WithTop.coe_lt_coe.mpr h3
        · exact lt_of_le_of_lt (WithTop.coe_le_coe.mpr h1) htm
      · apply lt_min
        · exact lt_of_lt_of_le htmin (WithTop.coe_le_coe.mpr h2)
        · exact lt_trans htmin htm

/-- A thick box containing the ray point at a parameter strictly inside
the query interval passes the whole box test. -/
theorem Aabb.rayHit_of_point (b : Aabb) (ray : Ray) (tmin tm : RE)
    (t : ℝ) (hthick : b.thick) (hc : b.containsPt (ray.point t))
    (htmin : tmin < (t : RE)) (htm : (t : RE) < tm) :
    b.rayHit ray tmin tm := by
  intro axis
  have hca := hc axis
  rw [Ray.point_nth] at hca
  exact Aabb.axisHit_of_point _ _ _ _ tmin tm t (hthick axis) hca.1 hca.2
    htmin htm

theorem Hitable.hit_obj_eq (s : Sphere) (ray : Ray) (tmin tmax : RE) :
    (Hitable.obj s).hit ray tmin tmax = s.hit ray tmin tmax := rfl

theorem Hitable.hit_node_eq (bbox : Option Aabb)
    (left right : Option Hitable) (ray : Ray) (tmin tmax : RE) :
    (Hitable.node bbox left right).hit ray tmin tmax =
      if ¬(bbox.elim False fun b => b.rayHit ray tmin tmax) then none
      else
        (match right with
          | none => none
          | some r =>
              r.hit ray tmin
                ((match left with
                  | none => none
                  | some l => l.hit ray tmin tmax).elim tmax
                  fun rec => (rec.t : RE))).or
          (match left with
            | none => none
            | some l => l.hit ray tmin tmax) := by
  rw [Hitable.hit.eq_def]

theorem Hitable.rootsT_obj (s : Sphere) (ray : Ray) :
    (Hitable.obj s).rootsT ray = s.roots ray := rfl

theorem Hitable.rootsT_node (bbox : Option Aabb)
    (left right : Option Hitable) (ray : Ray) :
    (Hitable.node bbox left right).rootsT ray =
      (match left with
        | none => []
        | some l => l.rootsT ray) ++
      (match right with
        | none => []
        | some r => r.rootsT ray) := by
  rw [Hitable.rootsT.eq_def]

theorem mkBbox_left (T1 : Hitable) (B1 : Aabb)
    (h1 : T1.bounding_box = some B1) : mkBbox (some T1) none = some B1 := by
  unfold mkBbox
  simp [h1]

theorem mkBbox_both (T1 T2 : Hitable) (B1 B2 : Aabb)
    (h1 : T1.bounding_box = some B1) (h2 : T2.bounding_box = some B2) :
    mkBbox (some T1) (some T2) = some (Aabb.surrounding_box B1 B2) := by
  unfold mkBbox
  simp [h1, h2]

/-- Every tree the constructor builds caches a thick box that contains
every member sphere's bounding box. -/
theorem built_box (T : Hitable) (l : List Sphere) (hb : Built T l) :
    (∀ s ∈ l, 0 < s.radius) →
      ∃ B : Aabb, T.bounding_box = some B ∧ B.thick ∧
        ∀ s ∈ l, s.bounding_box.subBox B := by
  induction hb with
  | one s =>
    intro hr
    refine ⟨s.bounding_box, rfl, Sphere.box_thick s (hr s (by simp)), ?_⟩
    intro s' hs'
    simp at hs'
    subst hs'
    exact Aabb.subBox_refl _
  | two s1 s2 l hp =>
    intro hr
    have hr1 : 0 < s1.radius := hr s1 (hp.mem_iff.mpr (by simp))
    refine ⟨Aabb.surrounding_box s1.bounding_box s2.bounding_box, rfl, ?_, ?_⟩
    · exact Aabb.thick_of_subBox (Aabb.subBox_surrounding_left _ _)
        (Sphere.box_thick s1 hr1)
    · intro s' hs'
      have : s' ∈ [s1, s2] := hp.mem_iff.mp hs'
      simp only [List.mem_cons, List.mem_singleton] at this
      rcases this with rfl | h
      · exact Aabb.subBox_surrounding_left _ _
      · simp at h
        subst h
        exact Aabb.subBox_surrounding_right _ _
  | more l l1 l2 T1 T2 hp h1 h2 hb1 hb2 ih1 ih2 =>
    intro hr
    have hr1 : ∀ s ∈ l1, 0 < s.radius := fun s hs =>
      hr s (hp.mem_iff.mpr (List.mem_append.mpr (Or.inl hs)))
    have hr2 : ∀ s ∈ l2, 0 < s.radius := fun s hs =>
      hr s (hp.mem_iff.mpr (List.mem_append.mpr (Or.inr hs)))
    obtain ⟨B1, hB1, ht1, hincl1⟩ := ih1 hr1
    obtain ⟨B2, hB2, ht2, hincl2⟩ := ih2 hr2
    refine ⟨Aabb.surrounding_box B1 B2, ?_, ?_, ?_⟩
    · show mkBbox (some T1) (some T2) = _
      exact mkBbox_both T1 T2 B1 B2 hB1 hB2
    · exact Aabb.thick_of_subBox (Aabb.subBox_surrounding_left _ _) ht1
    · intro s hs
      rcases List.mem_append.mp (hp.mem_iff.mp hs) with hs' | hs'
      · exact Aabb.subBox_trans (hincl1 s hs')
          (Aabb.subBox_surrounding_left _ _)
      · exact Aabb.subBox_trans (hincl2 s hs')
          (Aabb.subBox_surrounding_right _ _)

theorem mem_sceneRoots (l : List Sphere) (ray : Ray) (t : ℝ) :
    t ∈ sceneRoots l ray ↔ ∃ s ∈ l, t ∈ s.roots ray := by
  simp [sceneRoots, List.mem_flatten]

/-- The roots stored in a built tree are exactly the roots of the input
spheres. -/
theorem built_rootsT_mem (T : Hitable) (l : List Sphere) (hb : Built T l)
    (ray : Ray) (t : ℝ) : t ∈ T.rootsT ray ↔ t ∈ sceneRoots l ray := by
  induction hb with
  | one s =>
    show t ∈ (Hitable.obj s).rootsT ray ++ [] ↔ _
    simp [Hitable.rootsT_obj, mem_sceneRoots]
  | two s1 s2 l hp =>
    show t ∈ (Hitable.obj s1).rootsT ray ++ (Hitable.obj s2).rootsT ray ↔ _
    rw [mem_sceneRoots]
    simp only [Hitable.rootsT_obj, List.mem_append]
    constructor
    · rintro (h | h)
      · exact ⟨s1, hp.mem_iff.mpr (by simp), h⟩
      · exact ⟨s2, hp.mem_iff.mpr (by simp), h⟩
    · rintro ⟨s, hs, hts⟩
      have : s ∈ [s1, s2] := hp.mem_iff.mp hs
      simp only [List.mem_cons, List.mem_singleton] at this
      rcases this with rfl | h
      · exact Or.inl hts
      · simp at h
        subst h
        exact Or.inr hts
  | more l l1 l2 T1 T2 hp h1 h2 hb1 hb2 ih1 ih2 =>
    show t ∈ T1.rootsT ray ++ T2.rootsT ray ↔ _
    rw [mem_sceneRoots]
    simp only [List.mem_append, ih1, ih2, mem_sceneRoots]
    constructor
    · rintro (⟨s, hs, hts⟩ | ⟨s, hs, hts⟩)
      · exact ⟨s, hp.mem_iff.mpr (List.mem_append.mpr (Or.inl hs)), hts⟩
      · exact ⟨s, hp.mem_iff.mpr (List.mem_append.mpr (Or.inr hs)), hts⟩
    · rintro ⟨s, hs, hts⟩
      rcases List.mem_append.mp (hp.mem_iff.mp hs) with hs' | hs'
      · exact Or.inl ⟨s, hs', hts⟩
      · exact Or.inr ⟨s, hs', hts⟩

/-- When a node's box test fails, every accepted root of the subtree
must sit exactly at the `t_max` bound, so returning `none` satisfies the
pruned best-hit property. -/
theorem bvh_node_pruned (ray : Ray) (TMIN tm : RE) (B : Aabb)
    (roots : List ℝ) (hthick : B.thick)
    (hcons : ∀ t ∈ roots, B.containsPt (ray.point t))
    (hne : ∀ t ∈ roots, (t : RE) ≠ TMIN)
    (hmiss : ¬B.rayHit ray TMIN tm) :
    BestHitPruned none roots TMIN tm := by
  have hkey : ∀ t ∈ roots, notOutside TMIN tm t → (t : RE) = tm := by
    intro t ht hno
    rw [notOutside_iff] at hno
    rcases lt_or_eq_of_le hno.2 with hlt | heq
    · exfalso
      apply hmiss
      refine Aabb.rayHit_of_point B ray TMIN tm t hthick (hcons t ht) ?_ hlt
      rcases lt_or_eq_of_le hno.1 with h | h
      · exact h
      · exact absurd h.symm (hne t ht)
    · exact heq
  by_cases hex : ∃ t ∈ roots, notOutside TMIN tm t
  · obtain ⟨t0, ht0, hno0⟩ := hex
    right
    refine ⟨rfl, t0, hkey t0 ht0 hno0, ht0, hno0, ?_⟩
    intro u hu hnu
    have h1 := hkey u hu hnu
    have h2 := hkey t0 ht0 hno0
    have : (u : RE) = (t0 : RE) := h1.trans h2.symm
    exact le_of_eq (WithTop.coe_eq_coe.mp this).symm
  · left
    intro u hu hnu
    exact hex ⟨u, hu, hnu⟩

/-- Combining the left child's result with the right child's result
(queried with `t_max` tightened to the left hit) through `Option::or`
preserves the pruned best-hit property. -/
theorem bvh_or_combine (tmin tm : RE) (lo ro : Option HitRecord)
    (LR RR : List ℝ)
    (hl : BestHitPruned (lo.map (fun rec : HitRecord => rec.t)) LR tmin tm)
    (hr : BestHitPruned (ro.map (fun rec : HitRecord => rec.t)) RR tmin
      (lo.elim tm fun rec => (rec.t : RE))) :
    BestHitPruned ((ro.or lo).map (fun rec : HitRecord => rec.t))
      (LR ++ RR) tmin tm := by
  cases lo with
  | some recL =>
    rcases hl with hl | ⟨hc, _⟩
    swap
    · simp at hc
    obtain ⟨hmemL, hnoL, hminL⟩ := hl
    simp only [Option.elim] at hr
    have hnoL' := (notOutside_iff _ _ _).mp hnoL
    cases ro with
    | some recR =>
      rcases hr with hr | ⟨hc, _⟩
      swap
      · simp at hc
      obtain ⟨hmemR, hnoR, hminR⟩ := hr
      left
      have hnoR' := (notOutside_iff _ _ _).mp hnoR
      have hleRL : recR.t ≤ recL.t := WithTop.coe_le_coe.mp hnoR'.2
      refine ⟨List.mem_append.mpr (Or.inr hmemR), ?_, ?_⟩
      · rw [notOutside_iff]
        exact ⟨hnoR'.1, le_trans hnoR'.2 hnoL'.2⟩
      · intro u hu hnu
        rcases List.mem_append.mp hu with hu | hu
        · exact le_trans hleRL (hminL u hu hnu)
        · rcases le_or_lt u recL.t with h' | h'
          · refine le_trans (hminR u hu ?_) (le_refl u)
            rw [notOutside_iff] at hnu ⊢
            exact ⟨hnu.1, WithTop.coe_le_coe.mpr h'⟩
          · exact le_trans hleRL (le_of_lt h')
    | none =>
      left
      rcases hr with hr | ⟨_, t_r, htr_eq, htr_mem, htr_no, htr_min⟩
      · refine ⟨List.mem_append.mpr (Or.inl hmemL), hnoL, ?_⟩
        intro u hu hnu
        rcases List.mem_append.mp hu with hu | hu
        · exact hminL u hu hnu
        · by_contra hlt
          push_neg at hlt
          refine hr u hu ?_
          rw [notOutside_iff] at hnu ⊢
          exact ⟨hnu.1, le_of_lt (WithTop.coe_lt_coe.mpr hlt)⟩
      · have htr : t_r = recL.t := WithTop.coe_eq_coe.mp htr_eq
        subst htr
        refine ⟨List.mem_append.mpr (Or.inl hmemL), hnoL, ?_⟩
        intro u hu hnu
        rcases List.mem_append.mp hu with hu | hu
        · exact hminL u hu hnu
        · rcases le_or_lt u recL.t with h' | h'
          · refine htr_min u hu ?_
            rw [notOutside_iff] at hnu ⊢
            exact ⟨hnu.1, WithTop.coe_le_coe.mpr h'⟩
          · exact le_of_lt h'
  | none =>
    simp only [Option.elim] at hr
    rcases hl with hl | ⟨_, t_l, htl_eq, htl_mem, htl_no, htl_min⟩
    · cases ro with
      | some recR =>
        rcases hr with hr | ⟨hc, _⟩
        swap
        · simp at hc
        obtain ⟨hmemR, hnoR, hminR⟩ := hr
        left
        refine ⟨List.mem_append.mpr (Or.inr hmemR), hnoR, ?_⟩
        intro u hu hnu
        rcases List.mem_append.mp hu with hu | hu
        · exact absurd hnu (hl u hu)
        · exact hminR u hu hnu
      | none =>
        rcases hr with hr | ⟨_, t_r, htr_eq, htr_mem, htr_no, htr_min⟩
        · left
          intro u hu
          rcases List.mem_append.mp hu with hu | hu
          · exact hl u hu
          · exact hr u hu
        · right
          refine ⟨rfl, t_r, htr_eq, List.mem_append.mpr (Or.inr htr_mem),
            htr_no, ?_⟩
          intro u hu hnu
          rcases List.mem_append.mp hu with hu | hu
          · exact absurd hnu (hl u hu)
          · exact htr_min u hu hnu
    · cases ro with
      | some recR =>
        rcases hr with hr | ⟨hc, _⟩
        swap
        · simp at hc
        obtain ⟨hmemR, hnoR, hminR⟩ := hr
        left
        refine ⟨List.mem_append.mpr (Or.inr hmemR), hnoR, ?_⟩
        intro u hu hnu
        rcases List.mem_append.mp hu with hu | hu
        · have h1 := htl_min u hu hnu
          have hnoR' := (notOutside_iff _ _ _).mp hnoR
          have h2 : (recR.t : RE) ≤ (t_l : RE) := by
            rw [htl_eq]
            exact hnoR'.2
          exact le_trans (WithTop.coe_le_coe.mp h2) h1
        · exact hminR u hu hnu
      | none =>
        rcases hr with hr | ⟨_, t_r, htr_eq, htr_mem, htr_no, htr_min⟩
        · right
          refine ⟨rfl, t_l, htl_eq, List.mem_append.mpr (Or.inl htl_mem),
            htl_no, ?_⟩
          intro u hu hnu
          rcases List.mem_append.mp hu with hu | hu
          · exact htl_min u hu hnu
          · exact absurd hnu (hr u hu)
        · right
          have htrl : t_r = t_l :=
            WithTop.coe_eq_coe.mp (htr_eq.trans htl_eq.symm)
          refine ⟨rfl, t_l, htl_eq, List.mem_append.mpr (Or.inl htl_mem),
            htl_no, ?_⟩
          intro u hu hnu
          rcases List.mem_append.mp hu with hu | hu
          · exact htl_min u hu hnu
          · rw [← htrl]
            exact htr_min u hu hnu

/-- The right-child query and root list of an optional child. -/
def optHit (R : Option Hitable) (ray : Ray) (tmin tmax : RE) :
    Option HitRecord :=
  match R with
  | none => none
  | some r => r.hit ray tmin tmax

/-- Roots of an optional child. -/
def optRoots (R : Option Hitable) (ray : Ray) : List ℝ :=
  match R with
  | none => []
  | some r => r.rootsT ray

/-- One BVH node preserves the pruned best-hit property, given its box
facts and the children's properties. -/
theorem bvh_node_step (ray : Ray) (TMIN tm : RE) (L : Hitable)
    (R : Option Hitable) (B : Aabb) (hbox : mkBbox (some L) R = some B)
    (hthick : B.thick)
    (hcons : ∀ t ∈ L.rootsT ray ++ optRoots R ray,
      B.containsPt (ray.point t))
    (hne : ∀ t ∈ L.rootsT ray ++ optRoots R ray, (t : RE) ≠ TMIN)
    (hL : BestHitPruned
      ((L.hit ray TMIN tm).map (fun rec : HitRecord => rec.t))
      (L.rootsT ray) TMIN tm)
    (hR : ∀ tm' : RE,
      BestHitPruned
        ((optHit R ray TMIN tm').map (fun rec : HitRecord => rec.t))
        (optRoots R ray) TMIN tm') :
    BestHitPruned
      (((Hitable.node (mkBbox (some L) R) (some L) R).hit ray TMIN
        tm).map (fun rec : HitRecord => rec.t))
      ((Hitable.node (mkBbox (some L) R) (some L) R).rootsT ray) TMIN
      tm := by
  rcases R with _ | r
  · have hroots :
        (Hitable.node (mkBbox (some L) none) (some L) none).rootsT ray =
          L.rootsT ray ++ optRoots none ray := by
      rw [Hitable.rootsT_node]
      rfl
    rw [hroots, Hitable.hit_node_eq]
    by_cases hB : B.rayHit ray TMIN tm
    · rw [if_neg (by rw [hbox]; simpa using hB)]
      dsimp only
      rw [Option.none_or]
      have : optRoots none ray = ([] : List ℝ) := rfl
      rw [this, List.append_nil]
      exact hL
    · rw [if_pos (by rw [hbox]; simpa using hB)]
      exact bvh_node_pruned ray TMIN tm B _ hthick hcons hne hB
  · have hroots :
        (Hitable.node (mkBbox (some L) (some r)) (some L)
          (some r)).rootsT ray = L.rootsT ray ++ optRoots (some r) ray := by
      rw [Hitable.rootsT_node]
      rfl
    rw [hroots, Hitable.hit_node_eq]
    by_cases hB : B.rayHit ray TMIN tm
    · rw [if_neg (by rw [hbox]; simpa using hB)]
      dsimp only
      have hRr := hR ((L.hit ray TMIN tm).elim tm fun rec => (rec.t : RE))
      have hoH : optHit (some r) ray TMIN
          ((L.hit ray TMIN tm).elim tm fun rec => (rec.t : RE)) =
          r.hit ray TMIN
            ((L.hit ray TMIN tm).elim tm fun rec => (rec.t : RE)) := rfl
      have hoR : optRoots (some r) ray = r.rootsT ray := rfl
      rw [hoH, hoR] at hRr
      rw [hoR]
      exact bvh_or_combine TMIN tm (L.hit ray TMIN tm) _ (L.rootsT ray) _
        hL hRr
    · rw [if_pos (by rw [hbox]; simpa using hB)]
      exact bvh_node_pruned ray TMIN tm B _ hthick hcons hne hB

/-- The BVH traversal satisfies the pruned best-hit property for every
built tree and every `t_max` bound, provided no root coincides with
`t_min`. -/
theorem bvh_hit_bestHitPruned (ray : Ray) (TMIN : RE)
    (ha : 0 < ray.direction.square) (T : Hitable) (l : List Sphere)
    (hb : Built T l) :
    (∀ s ∈ l, 0 < s.radius) →
      (∀ s ∈ l, ∀ t ∈ s.roots ray, (t : RE) ≠ TMIN) →
      ∀ tm : RE,
        BestHitPruned
          ((T.hit ray TMIN tm).map (fun rec : HitRecord => rec.t))
          (T.rootsT ray) TMIN tm := by
  induction hb with
  | one s =>
    intro hr hne tm
    unfold BvhNode.newSingle
    apply bvh_node_step ray TMIN tm (.obj s) none s.bounding_box
      (mkBbox_left _ _ rfl) (Sphere.box_thick s (hr s (by simp)))
    · intro t ht
      simp only [Hitable.rootsT_obj, optRoots, List.append_nil] at ht
      exact Sphere.root_in_box s ray (hr s (by simp)) ha t ht
    · intro t ht
      simp only [Hitable.rootsT_obj, optRoots, List.append_nil] at ht
      exact hne s (by simp) t ht
    · rw [Hitable.hit_obj_eq, Hitable.rootsT_obj]
      exact Or.inl (Sphere.hit_bestHit s ray TMIN tm ha)
    · intro tm'
      left
      intro u hu
      simp [optRoots] at hu
  | two s1 s2 l hp =>
    intro hr hne tm
    have hm1 : s1 ∈ l := hp.mem_iff.mpr (by simp)
    have hm2 : s2 ∈ l := hp.mem_iff.mpr (by simp)
    have hr1 : 0 < s1.radius := hr s1 hm1
    have hr2 : 0 < s2.radius := hr s2 hm2
    apply bvh_node_step ray TMIN tm (.obj s1) (some (.obj s2))
      (Aabb.surrounding_box s1.bounding_box s2.bounding_box)
      (mkBbox_both _ _ _ _ rfl rfl)
      (Aabb.thick_of_subBox (Aabb.subBox_surrounding_left _ _)
        (Sphere.box_thick s1 hr1))
    · intro t ht
      simp only [Hitable.rootsT_obj, optRoots] at ht
      rcases List.mem_append.mp ht with ht | ht
      · exact Aabb.containsPt_of_subBox (Aabb.subBox_surrounding_left _ _)
          (Sphere.root_in_box s1 ray hr1 ha t ht)
      · exact Aabb.containsPt_of_subBox (Aabb.subBox_surrounding_right _ _)
          (Sphere.root_in_box s2 ray hr2 ha t ht)
    · intro t ht
      simp only [Hitable.rootsT_obj, optRoots] at ht
      rcases List.mem_append.mp ht with ht | ht
      · exact hne s1 hm1 t ht
      · exact hne s2 hm2 t ht
    · rw [Hitable.hit_obj_eq, Hitable.rootsT_obj]
      exact Or.inl (Sphere.hit_bestHit s1 ray TMIN tm ha)
    · intro tm'
      unfold optHit optRoots
      dsimp only
      rw [Hitable.hit_obj_eq, Hitable.rootsT_obj]
      exact Or.inl (Sphere.hit_bestHit s2 ray TMIN tm' ha)
  | more l l1 l2 T1 T2 hp h1 h2 hb1 hb2 ih1 ih2 =>
    intro hr hne tm
    have hr1 : ∀ s ∈ l1, 0 < s.radius := fun s hs =>
      hr s (hp.mem_iff.mpr (List.mem_append.mpr (Or.inl hs)))
    have hr2 : ∀ s ∈ l2, 0 < s.radius := fun s hs =>
      hr s (hp.mem_iff.mpr (List.mem_append.mpr (Or.inr hs)))
    have hne1 : ∀ s ∈ l1, ∀ t ∈ s.roots ray, (t : RE) ≠ TMIN :=
      fun s hs => hne s (hp.mem_iff.mpr (List.mem_append.mpr (Or.inl hs)))
    have hne2 : ∀ s ∈ l2, ∀ t ∈ s.roots ray, (t : RE) ≠ TMIN :=
      fun s hs => hne s (hp.mem_iff.mpr (List.mem_append.mpr (Or.inr hs)))
    obtain ⟨B1, hB1, ht1, hincl1⟩ := built_box T1 l1 hb1 hr1
    obtain ⟨B2, hB2, ht2, hincl2⟩ := built_box T2 l2 hb2 hr2
    apply bvh_node_step ray TMIN tm T1 (some T2)
      (Aabb.surrounding_box B1 B2) (mkBbox_both _ _ _ _ hB1 hB2)
      (Aabb.thick_of_subBox (Aabb.subBox_surrounding_left _ _) ht1)
    · intro t ht
      simp only [optRoots] at ht
      rcases List.mem_append.mp ht with ht | ht
      · obtain ⟨s, hs, hts⟩ := (mem_sceneRoots l1 ray t).mp
          ((built_rootsT_mem T1 l1 hb1 ray t).mp ht)
        exact Aabb.containsPt_of_subBox
          (Aabb.subBox_trans (hincl1 s hs)
            (Aabb.subBox_surrounding_left _ _))
          (Sphere.root_in_box s ray (hr1 s hs) ha t hts)
      · obtain ⟨s, hs, hts⟩ := (mem_sceneRoots l2 ray t).mp
          ((built_rootsT_mem T2 l2 hb2 ray t).mp ht)
        exact Aabb.containsPt_of_subBox
          (Aabb.subBox_trans (hincl2 s hs)
            (Aabb.subBox_surrounding_right _ _))
          (Sphere.root_in_box s ray (hr2 s hs) ha t hts)
    · intro t ht
      simp only [optRoots] at ht
      rcases List.mem_append.mp ht with ht | ht
      · obtain ⟨s, hs, hts⟩ := (mem_sceneRoots l1 ray t).mp
          ((built_rootsT_mem T1 l1 hb1 ray t).mp ht)
        exact hne1 s hs t hts
      · obtain ⟨s, hs, hts⟩ := (mem_sceneRoots l2 ray t).mp
          ((built_rootsT_mem T2 l2 hb2 ray t).mp ht)
        exact hne2 s hs t hts
    · exact ih1 hr1 hne1 tm
    · intro tm'
      unfold optHit optRoots
      dsimp only
      exact ih2 hr2 hne2 tm'

/-- Two best hits over the same root set agree. -/
theorem BestHit_unique (o1 o2 : Option ℝ) (S1 S2 : List ℝ)
    (tmin tmax : RE) (hmem : ∀ x : ℝ, x ∈ S1 ↔ x ∈ S2)
    (h1 : BestHit o1 S1 tmin tmax) (h2 : BestHit o2 S2 tmin tmax) :
    o1 = o2 := by
  cases o1 with
  | none =>
    cases o2 with
    | none => rfl
    | some t2 => exact absurd h2.2.1 (h1 t2 ((hmem t2).mpr h2.1))
  | some t1 =>
    cases o2 with
    | none => exact absurd h1.2.1 (h2 t1 ((hmem t1).mp h1.1))
    | some t2 =>
      have hle1 : t1 ≤ t2 := h1.2.2 t2 ((hmem t2).mpr h2.1) h2.2.1
      have hle2 : t2 ≤ t1 := h2.2.2 t1 ((hmem t1).mp h1.1) h1.2.1
      rw [le_antisymm hle1 hle2]

/-- C2 amended: for every ray with non-degenerate direction, every
non-empty list of spheres with positive radii, and every interval whose
bounds do not coincide exactly with any sphere root, the BVH built from
the list returns `None` exactly when the brute-force scan does, and
otherwise a hit with the same `t` — the globally closest accepted
intersection parameter. -/
theorem C2_bvh_matches_scan (ray : Ray) (l : List Sphere) (T : Hitable)
    (hb : Built T l) (ha : 0 < ray.direction.square)
    (hr : ∀ s ∈ l, 0 < s.radius) (tmin tmax : RE)
    (hne : ∀ s ∈ l, ∀ t ∈ s.roots ray,
      (t : RE) ≠ tmin ∧ (t : RE) ≠ tmax) :
    (T.hit ray tmin tmax).map (fun rec : HitRecord => rec.t) =
      (listHit l ray tmin tmax).map (fun rec : HitRecord => rec.t) := by
  have hbvh := bvh_hit_bestHitPruned ray tmin ha T l hb hr
    (fun s hs t ht => (hne s hs t ht).1) tmax
  have hscan := listHit_bestHit l ray tmin tmax ha
  rcases hbvh with hbvh | ⟨_, t0, ht0eq, ht0mem, _, _⟩
  · exact BestHit_unique _ _ _ _ _ _
      (fun x => built_rootsT_mem T l hb ray x) hbvh hscan
  · obtain ⟨s, hs, hts⟩ := (mem_sceneRoots l ray t0).mp
      ((built_rootsT_mem T l hb ray t0).mp ht0mem)
    exact absurd ht0eq (hne s hs t0 hts).2

/-- The C2 boundary sphere: unit radius at `(0,0,-5)`. -/
def c2Sphere : Sphere :=
  ⟨Vec3.new 0 0 (-5), 1, .light (.monochrome Vec3.zero)⟩

/-- The C2 ray: from the origin towards the sphere. -/
def c2Ray : Ray := ⟨Vec3.zero, Vec3.new 0 0 (-1), 0⟩

theorem c2Sphere_roots : c2Sphere.roots c2Ray = [4, 6] := by
  unfold Sphere.roots c2Sphere c2Ray
  norm_num [Vec3.dot, Vec3.square, Vec3.new, Vec3.zero, Real.sqrt_one]

/-- C2 counterexample: with `t_max = 4` exactly at the sphere's nearer
root (which is also the box-entry parameter), the BVH returns `None`
while the brute-force scan over the same single-sphere list returns the
hit at `t = 4` — the two disagree. -/
theorem C2_counterexample :
    Built (BvhNode.newSingle c2Sphere) [c2Sphere] ∧
      (BvhNode.newSingle c2Sphere).hit c2Ray ((1 : ℝ) : RE)
          ((4 : ℝ) : RE) = none ∧
      (listHit [c2Sphere] c2Ray ((1 : ℝ) : RE) ((4 : ℝ) : RE)).map
          (fun rec : HitRecord => rec.t) = some 4 := by
  refine ⟨Built.one c2Sphere, ?_, ?_⟩
  · unfold BvhNode.newSingle
    rw [Hitable.hit_node_eq, if_pos]
    show ¬(mkBbox (some (Hitable.obj c2Sphere)) none).elim False fun b =>
      b.rayHit c2Ray ((1 : ℝ) : RE) ((4 : ℝ) : RE)
    rw [show mkBbox (some (Hitable.obj c2Sphere)) none =
        some c2Sphere.bounding_box from rfl]
    intro hray
    have h2 := hray 2
    unfold Aabb.axisHit at h2
    revert h2
    norm_num [Sphere.bounding_box, Aabb.new, Vec3.new, Vec3.nth,
      c2Sphere, c2Ray, Vec3.zero]
  · unfold listHit
    rw [List.foldl_cons, List.foldl_nil]
    simp only [Option.elim]
    have hhit : c2Sphere.hit c2Ray ((1 : ℝ) : RE) ((4 : ℝ) : RE) =
        some
          (HitRecord.mk 4 (Vec3.new 0 0 (-4)) (Vec3.new 0 0 1)
            (Sphere.get_texture_coordinates (Vec3.new 0 0 1)) true
            (.light (.monochrome Vec3.zero))) := by
      unfold c2Sphere c2Ray Sphere.hit
      norm_num [Vec3.dot, Vec3.square, Vec3.new, Vec3.zero, Real.sqrt_one,
        WithTop.coe_lt_coe, Ray.point, Vec3.divScalar, HitRecord.new,
        HitRecord.set_face_normal]
    rw [hhit]
    rfl

/-- C2 amended witness: on the single-sphere scene with interval
`[1, 10]` (no root on the boundary), the BVH and the scan agree. -/
theorem C2_witness :
    Built (BvhNode.newSingle c2Sphere) [c2Sphere] ∧
      (0 : ℝ) < c2Ray.direction.square ∧
      (∀ s ∈ [c2Sphere], 0 < s.radius) ∧
      (∀ s ∈ [c2Sphere], ∀ t ∈ s.roots c2Ray,
        (t : RE) ≠ ((1 : ℝ) : RE) ∧ (t : RE) ≠ ((10 : ℝ) : RE)) ∧
      ((BvhNode.newSingle c2Sphere).hit c2Ray ((1 : ℝ) : RE)
          ((10 : ℝ) : RE)).map (fun rec : HitRecord => rec.t) =
        (listHit [c2Sphere] c2Ray ((1 : ℝ) : RE) ((10 : ℝ) : RE)).map
          (fun rec : HitRecord => rec.t) := by
  have ha : (0 : ℝ) < c2Ray.direction.square := by
    norm_num [c2Ray, Vec3.square, Vec3.new]
  have hr : ∀ s ∈ [c2Sphere], 0 < s.radius := by
    intro s hs
    simp at hs
    subst hs
    norm_num [c2Sphere]
  have hne : ∀ s ∈ [c2Sphere], ∀ t ∈ s.roots c2Ray,
      (t : RE) ≠ ((1 : ℝ) : RE) ∧ (t : RE) ≠ ((10 : ℝ) : RE) := by
    intro s hs t ht
    simp only [List.mem_singleton] at hs
    subst hs
    rw [c2Sphere_roots] at ht
    simp only [List.mem_cons, List.mem_singleton] at ht
    rcases ht with rfl | ht
    · constructor <;>
        exact fun h => absurd (WithTop.coe_eq_coe.mp h) (by norm_num)
    · simp at ht
      subst ht
      constructor <;>
        exact fun h => absurd (WithTop.coe_eq_coe.mp h) (by norm_num)
  exact ⟨Built.one c2Sphere, ha, hr, hne,
    C2_bvh_matches_scan c2Ray [c2Sphere] (BvhNode.newSingle c2Sphere)
      (Built.one c2Sphere) ha hr ((1 : ℝ) : RE) ((10 : ℝ) : RE) hne⟩

end CrabRt
